import Mathlib

/-!
Verification of the ferveo PVDKG and tpke threshold-decryption core.

Group elements are embedded in exponent form over the scalar field `F`:
a G1 point `g·a` is represented by its discrete logarithm `a : F`, a G2 point
`h·b` by `b : F`, a GT element `e(g,h)^c` by `c : F`, and the pairing
`e(g·a, h·b) = e(g,h)^(a·b)` becomes field multiplication.  Byte strings are
`List Nat`.  Fallible Rust functions returning `Result` are embedded as
`Except`.
-/

deriving instance DecidableEq for Except

/-- Horner evaluation of a polynomial given by its coefficient list
(`coeffs[0]` is the constant term), as `DensePolynomial::evaluate` computes it. -/
def evalPoly {F : Type} [Field F] (coeffs : List F) (x : F) : F :=
  coeffs.foldr (fun a acc => a + x * acc) 0

/-- Lagrange coefficient at zero for node `x` among the nodes `s`: the value at
`0` of the Lagrange basis polynomial of `x`.  This is what
`prepare_combine_simple` computes for each domain point. -/
def lagrangeCoeffAt0 {F : Type} [Field F] [DecidableEq F] (s : Finset F) (x : F) : F :=
  ∏ y ∈ s.erase x, -y / (x - y)

/-- Concrete five-element field used to run the embedding on concrete inputs:
`Fin 5` with a table-based inverse, so that every operation reduces in the
kernel. -/
def F5 := Fin 5

instance : CommRing F5 := inferInstanceAs (CommRing (Fin 5))

instance : DecidableEq F5 := inferInstanceAs (DecidableEq (Fin 5))

instance : Fintype F5 := inferInstanceAs (Fintype (Fin 5))

/-- Table-based multiplicative inverse on `F5`. -/
def F5.inv (x : F5) : F5 :=
  if x = 0 then 0 else if x = 1 then 1 else if x = 2 then 3 else if x = 3 then 2 else 4

instance : Field F5 :=
  { (inferInstanceAs (CommRing F5)) with
    inv := F5.inv
    exists_pair_ne := ⟨0, 1, by decide⟩
    mul_inv_cancel := by decide
    inv_zero := by decide
    nnqsmul := _
    qsmul := _ }

namespace Tpke

/-- Error taxonomy of tpke (`ThresholdEncryptionError` in `tpke/src/lib.rs`). -/
inductive ThresholdEncryptionError
  | CiphertextVerificationFailed
  | DecryptionShareVerificationFailed
  | HashToCurveError
  | PlaintextVerificationFailed
  deriving DecidableEq, Repr

/-- Ciphertext model (`Ciphertext<E>` of `tpke`).  `commitment` is the exponent
of `U = g·r`, `auth_tag` the exponent of `W ∈ G2`, `ciphertext` the DEM byte
stream.  The DEM authentication tag (carried inside the AEAD ciphertext in the
Rust code) is modelled as the separate field `dem_tag`. -/
structure Ciphertext (F : Type) where
  commitment : F
  auth_tag : F
  ciphertext : List Nat
  dem_tag : Nat
  deriving DecidableEq, Repr

/-- Modelled from the spec: the DEM stream cipher (ChaCha20-like);
`tpke/src/ciphertext.rs` is not part of the sources.  `stream key i` is the
`i`-th keystream byte under symmetric key `key`; encryption and decryption both
XOR the data with the keystream. -/
def xorStream (stream : Nat → Nat → Nat) (key : Nat) (data : List Nat) : List Nat :=
  data.zipWith (fun b k => b ^^^ k) ((List.range data.length).map (stream key))

/-- Modelled from the spec (§4.4): `encrypt(msg, aad, pubkey, rng)`;
`tpke/src/ciphertext.rs` is not part of the sources.  The RNG is modelled by
the scalar `r` it yields.  The KEM shared secret is the GT element `e(Y, h)^r`
(exponent `pubkey * r`), the one the combiner reconstructs (§4.6); `kdf`
derives the DEM key from it, `mac` is the DEM authenticator, and `hash2` is the
hash-to-G2 `H₂(U ‖ C ‖ aad)` in exponent form, abstracted over the byte
serialization of `U`. -/
def encrypt {F : Type} [Field F] (hash2 : F → List Nat → List Nat → F)
    (kdf : F → Nat) (stream : Nat → Nat → Nat) (mac : Nat → List Nat → List Nat → Nat)
    (msg aad : List Nat) (pubkey : F) (r : F) : Ciphertext F :=
  let u := r
  let shared_secret := pubkey * r
  let key := kdf shared_secret
  let c := xorStream stream key msg
  ⟨u, hash2 u c aad * r, c, mac key c aad⟩

/-- Modelled from the spec (§4.4): the public well-formedness check
`e(U, H₂(U‖C‖aad)) = e(g, W)`, folded into one product of pairings with the
prepared negative generator `g_inv = -g` as in the Rust code, i.e.
`e(U, H₂(U‖C‖aad)) · e(g_inv, W) = 1`; in exponent form the GT exponent must be
zero.  `tpke/src/ciphertext.rs` is not part of the sources. -/
def check_ciphertext_validity {F : Type} [Field F] [DecidableEq F]
    (hash2 : F → List Nat → List Nat → F) (c : Ciphertext F) (aad : List Nat)
    (g_inv : F) : Bool :=
  decide (c.commitment * hash2 c.commitment c.ciphertext aad + g_inv * c.auth_tag = 0)

/-- Modelled from the spec (§4.6 Unseal, §6.4):
`decrypt_with_shared_secret(ciphertext, aad, shared_secret, g_inv)` (the Rust
`checked_decrypt_with_shared_secret`; `tpke/src/ciphertext.rs` is not part of
the sources).  It checks ciphertext validity, re-derives the DEM key from the
shared secret, verifies the DEM authentication tag, and unseals. -/
def decrypt_with_shared_secret {F : Type} [Field F] [DecidableEq F]
    (hash2 : F → List Nat → List Nat → F) (kdf : F → Nat)
    (stream : Nat → Nat → Nat) (mac : Nat → List Nat → List Nat → Nat)
    (c : Ciphertext F) (aad : List Nat) (shared_secret : F) (g_inv : F) :
    Except ThresholdEncryptionError (List Nat) :=
  if ¬ check_ciphertext_validity hash2 c aad g_inv then
    .error .CiphertextVerificationFailed
  else
    let key := kdf shared_secret
    if c.dem_tag ≠ mac key c.ciphertext aad then
      .error .PlaintextVerificationFailed
    else
      .ok (xorStream stream key c.ciphertext)

/-- Private key share of the validator at domain point `x`, as constructed by
`setup_simple` in `tpke/src/lib.rs`: `privkey_shares[i] = h · f(ωⁱ)` for the
dealer polynomial `f`; exponent form `f(x)`. -/
def private_key_share_at {F : Type} [Field F] (coeffs : List F) (x : F) : F :=
  evalPoly coeffs x

/-- Joint public key produced by `setup_simple` in `tpke/src/lib.rs`:
`Y = g·x` with `x = coeffs[0] = f(0)`; exponent form `f(0)`. -/
def setup_pubkey {F : Type} [Field F] (coeffs : List F) : F :=
  evalPoly coeffs 0

/-- Modelled from the spec (§4.5): a validator's decryption share for
ciphertext `c`: `decryption_share = e(U, private_key_share)`; exponent form.
`tpke/src/decryption.rs` is not part of the sources. -/
def create_share {F : Type} [Field F] (c : Ciphertext F) (private_key_share : F) : F :=
  c.commitment * private_key_share

/-- Modelled from the spec (§4.6): Lagrange combination of the decryption
shares at the domain points `dom` (the Rust `share_combine_simple` applied to
the coefficients from `prepare_combine_simple`; `tpke/src/combine.rs` is not
part of the sources).  GT exponents add, so `Π share_x^{λ_x}` becomes
`Σ λ_x · share_x`. -/
def share_combine_simple {F : Type} [Field F] [DecidableEq F] (dom : Finset F)
    (share : F → F) : F :=
  ∑ x ∈ dom, lagrangeCoeffAt0 dom x * share x

end Tpke

namespace Ferveo

/-- Mirror of `ExternalValidator<E>` in `ferveo-common/src/lib.rs`: an address
and a public key in G2 (exponent form).  The Rust derived `PartialEq` compares
both fields, which is what `=` on this structure does. -/
structure ExternalValidator (F : Type) where
  address : String
  public_key : F
  deriving DecidableEq, Repr

/-- Mirror of `Validator<E>` in `ferveo-common/src/lib.rs`. -/
structure Validator (F : Type) where
  validator : ExternalValidator F
  share_index : Nat
  deriving DecidableEq, Repr

/-- Mirror of `ferveo_common::Keypair<E>`: the validator-local scalar. -/
structure Keypair (F : Type) where
  decryption_key : F
  deriving DecidableEq, Repr

/-- Mirror of `Params` (spec §3): session tag, threshold `t`, share count `N`.
Fields are `u32` in Rust; claims stay far below `2^32`, so `Nat` is used. -/
structure Params where
  tau : Nat
  security_threshold : Nat
  shares_num : Nat
  deriving DecidableEq, Repr

/-- Model of `PubliclyVerifiableSS<E>` (the `ferveo` vss module is not among
the sources; modelled from the spec §4.2).  `coeffs` is the list of Feldman
commitments to the dealer polynomial's coefficients, in exponent form, so
`coeffs[0]` is the 0-point commitment `g·f(0)` that `final_key` adds up.
`optimistic_ok` is the outcome of the transcript's optimistic verification
(degree and pairing checks of §4.2), carried by the model because the checking
code is not among the sources. -/
structure PubliclyVerifiableSS (F : Type) where
  coeffs : List F
  optimistic_ok : Bool
  deriving DecidableEq, Repr

/-- Alias mirroring `type Pvss<E> = PubliclyVerifiableSS<E>`. -/
abbrev Pvss (F : Type) := PubliclyVerifiableSS F

/-- Modelled from the spec (§4.2): `verify_optimistic` — the transcript's
public checks; the vss module is not among the sources, so the model reads the
carried outcome. -/
def PubliclyVerifiableSS.verify_optimistic {F : Type} (p : PubliclyVerifiableSS F) : Bool :=
  p.optimistic_ok

/-- Modelled from the spec (§4.2): the aggregated transcript.  `agg_valid`
records whether the degree and pairing checks pass on the aggregated points;
`verified_count` is the count of transcripts aggregated, conveyed out-of-band,
that `verify_aggregation` returns. -/
structure AggregatedPvss (F : Type) where
  agg_valid : Bool
  verified_count : Nat
  deriving DecidableEq, Repr

/-- Mirror of `Aggregation<E>` in `ferveo/src/dkg/pv.rs`. -/
structure Aggregation (F : Type) where
  vss : AggregatedPvss F
  final_key : F
  deriving DecidableEq, Repr

/-- Mirror of `Message<E>` in `ferveo/src/dkg/pv.rs`. -/
inductive Message (F : Type)
  | Deal (pvss : PubliclyVerifiableSS F)
  | Aggregate (agg : Aggregation F)
  deriving DecidableEq, Repr

/-- Mirror of `DkgState<E>` (spec §3). -/
inductive DkgState (F : Type)
  | Sharing (accumulated_shares : Nat) (block : Nat)
  | Dealt
  | Success (final_key : F)
  deriving DecidableEq, Repr

/-- Error taxonomy.  The Rust code reports all these as `anyhow` strings; the
constructors name the distinct messages of `ferveo/src/dkg/pv.rs`, following
the spec taxonomy (§7). -/
inductive DkgError
  | InvalidParameters
  | UnknownDealer
  | RepeatDealer
  | InvalidTranscript
  | InsufficientAggregation
  | WrongFinalKey
  | BadState
  deriving DecidableEq, Repr

/-- Insertion into the `BTreeMap<u32, PubliclyVerifiableSS>` modelled as an
association list sorted by key; an existing key has its value replaced. -/
def insertSorted {F : Type} (k : Nat) (v : PubliclyVerifiableSS F) :
    List (Nat × PubliclyVerifiableSS F) → List (Nat × PubliclyVerifiableSS F)
  | [] => [(k, v)]
  | (k', v') :: rest =>
    if k < k' then (k, v) :: (k', v') :: rest
    else if k = k' then (k, v) :: rest
    else (k', v') :: insertSorted k v rest

/-- Mirror of `BTreeMap::contains_key`. -/
def containsKey {F : Type} (k : Nat) (m : List (Nat × PubliclyVerifiableSS F)) : Bool :=
  m.any (fun kv => kv.1 == k)

/-- Invariant of the association-list model of `BTreeMap`: keys strictly
increasing. -/
def vssSorted {F : Type} (m : List (Nat × PubliclyVerifiableSS F)) : Prop :=
  m.Pairwise (fun a b => a.1 < b.1)

instance {F : Type} (m : List (Nat × PubliclyVerifiableSS F)) : Decidable (vssSorted m) :=
  inferInstanceAs (Decidable (m.Pairwise _))

/-- Modelled from the spec (§4.1, §9): `ferveo_common::is_power_of_2` is not
among the sources. -/
def is_power_of_2 (n : Nat) : Bool :=
  n != 0 && (n &&& (n - 1)) == 0

/-- Modelled from the spec (§3): `make_validators` (not among the sources)
assigns each external validator its list position as `share_index`. -/
def make_validators {F : Type} (vs : List (ExternalValidator F)) : List (Validator F) :=
  vs.enum.map (fun iv => ⟨iv.2, iv.1⟩)

/-- Mirror of `PubliclyVerifiableDkg<E>` in `ferveo/src/dkg/pv.rs`.  The
`pvss_params` field (the fixed generators `g`, `h`) and the Radix-2 `domain`
(determined by `shares_num`) carry no extra data in the exponent embedding and
are omitted.  `vss` is the `BTreeMap` as a key-sorted association list. -/
structure PubliclyVerifiableDkg (F : Type) where
  params : Params
  session_keypair : Keypair F
  validators : List (Validator F)
  vss : List (Nat × PubliclyVerifiableSS F)
  state : DkgState F
  me : Nat
  deriving DecidableEq, Repr

/-- Mirror of `PubliclyVerifiableDkg::new`.  The two failure cases (share
count not a power of two; `me` not found, by the derived full equality) are
both `anyhow` errors in Rust, classified `InvalidParameters` by the spec (§7).
The `Radix2EvaluationDomain::new` panic path (shares beyond the field's
two-adicity) is outside the `Result` discipline and is not modelled. -/
def PubliclyVerifiableDkg.new {F : Type} [Field F] [DecidableEq F]
    (validators : List (ExternalValidator F)) (params : Params)
    (me : ExternalValidator F) (session_keypair : Keypair F) :
    Except DkgError (PubliclyVerifiableDkg F) :=
  if ¬ is_power_of_2 params.shares_num then .error .InvalidParameters
  else
    match validators.findIdx? (fun probe => decide (me = probe)) with
    | none => .error .InvalidParameters
    | some meIdx =>
      .ok { params := params, session_keypair := session_keypair,
            validators := make_validators validators, vss := [],
            state := .Sharing 0 0, me := meIdx }

/-- Mirror of `PubliclyVerifiableDkg::final_key`: the sum over the stored
transcripts, in `BTreeMap` value order, of the 0-point commitment `coeffs[0]`
(`List.headD` totalizes the Rust panicking index). -/
def PubliclyVerifiableDkg.final_key {F : Type} [Field F]
    (d : PubliclyVerifiableDkg F) : F :=
  (d.vss.map (fun kv => kv.2.coeffs.headD 0)).sum

/-- State guard of the `Message::Deal` arms: `Sharing {..} | Dealt`. -/
def stateAcceptsDeal {F : Type} : DkgState F → Bool
  | .Sharing _ _ => true
  | .Dealt => true
  | _ => false

/-- State guard of the `Message::Aggregate` arms: `Dealt`. -/
def isDealt {F : Type} : DkgState F → Bool
  | .Dealt => true
  | _ => false

/-- Modelled from the spec (§4.2): `verify_aggregation` re-runs the public
checks on the aggregated transcript and returns the count of transcripts
aggregated; the vss module is not among the sources. -/
def AggregatedPvss.verify_aggregation {F : Type} (vss : AggregatedPvss F)
    (_dkg : PubliclyVerifiableDkg F) : Except DkgError Nat :=
  if vss.agg_valid then .ok vss.verified_count else .error .InvalidTranscript

/-- Mirror of `PubliclyVerifiableDkg::verify_message`.  Note the Deal arm
resolves the sender with the derived full equality `sender == probe.validator`
(address and public key), while `minimum_shares` is the `u32` difference
`shares_num - security_threshold` (here `Nat` subtraction, which agrees
whenever `security_threshold ≤ shares_num`). -/
def PubliclyVerifiableDkg.verify_message {F : Type} [Field F] [DecidableEq F]
    (d : PubliclyVerifiableDkg F) (sender : ExternalValidator F)
    (payload : Message F) : Except DkgError Unit :=
  match payload with
  | .Deal pvss =>
    if stateAcceptsDeal d.state then
      match d.validators.findIdx? (fun probe => decide (sender = probe.validator)) with
      | none => .error .UnknownDealer
      | some senderIdx =>
        if containsKey senderIdx d.vss then .error .RepeatDealer
        else if ¬ pvss.verify_optimistic then .error .InvalidTranscript
        else .ok ()
    else .error .BadState
  | .Aggregate agg =>
    if isDealt d.state then
      let minimum_shares := d.params.shares_num - d.params.security_threshold
      match agg.vss.verify_aggregation d with
      | .error e => .error e
      | .ok verified_shares =>
        if verified_shares < minimum_shares then .error .InsufficientAggregation
        else if d.final_key = agg.final_key then .ok ()
        else .error .WrongFinalKey
    else .error .BadState

/-- Mirror of `PubliclyVerifiableDkg::apply_message`.  The Deal arm resolves
the sender by address only (`sender.address == probe.validator.address`),
inserts unconditionally, and in `Sharing` increments `accumulated_shares`,
moving to `Dealt` once it reaches `security_threshold`. -/
def PubliclyVerifiableDkg.apply_message {F : Type} [Field F] [DecidableEq F]
    (d : PubliclyVerifiableDkg F) (sender : ExternalValidator F)
    (payload : Message F) : Except DkgError (PubliclyVerifiableDkg F) :=
  match payload with
  | .Deal pvss =>
    if stateAcceptsDeal d.state then
      match d.validators.findIdx? (fun probe => sender.address == probe.validator.address) with
      | none => .error .UnknownDealer
      | some senderIdx =>
        let d1 : PubliclyVerifiableDkg F := { d with vss := insertSorted senderIdx pvss d.vss }
        match d1.state with
        | .Sharing accumulated_shares block =>
          let acc := accumulated_shares + 1
          .ok { d1 with
                state := if d1.params.security_threshold ≤ acc then .Dealt
                         else .Sharing acc block }
        | _ => .ok d1
    else .error .BadState
  | .Aggregate _ =>
    if isDealt d.state then .ok { d with state := .Success d.final_key }
    else .error .BadState

/-- Mirror of `PubliclyVerifiableDkg::deal`: address-resolved insertion with no
state guard and no state change. -/
def PubliclyVerifiableDkg.deal {F : Type} [Field F] [DecidableEq F]
    (d : PubliclyVerifiableDkg F) (sender : ExternalValidator F)
    (pvss : PubliclyVerifiableSS F) : Except DkgError (PubliclyVerifiableDkg F) :=
  match d.validators.findIdx? (fun probe => sender.address == probe.validator.address) with
  | none => .error .UnknownDealer
  | some senderIdx => .ok { d with vss := insertSorted senderIdx pvss d.vss }

/-- Sequential application of ordered messages, as the ordering oracle drives
`apply_message` (spec §6.1). -/
def runDkg {F : Type} [Field F] [DecidableEq F] (d : PubliclyVerifiableDkg F)
    (msgs : List (ExternalValidator F × Message F)) :
    Except DkgError (PubliclyVerifiableDkg F) :=
  msgs.foldlM (fun d sm => d.apply_message sm.1 sm.2) d

/-- State transition performed by one successful Deal application. -/
def stateStep {F : Type} (t : Nat) : DkgState F → DkgState F
  | .Sharing a bl => if t ≤ a + 1 then .Dealt else .Sharing (a + 1) bl
  | s => s

/-- Net effect of one successful Deal application from resolved sender `i`. -/
def dealStep {F : Type} (d : PubliclyVerifiableDkg F) (i : Nat)
    (p : PubliclyVerifiableSS F) : PubliclyVerifiableDkg F :=
  { d with vss := insertSorted i p d.vss,
           state := stateStep d.params.security_threshold d.state }

/-- Deal message paired with its sender, as fed to the ordering oracle. -/
def mkDealMsg {F : Type} (sp : ExternalValidator F × PubliclyVerifiableSS F) :
    ExternalValidator F × Message F :=
  (sp.1, .Deal sp.2)

/-- Pure fold of `dealStep` over resolved (index, transcript) pairs. -/
def applyDealsPure {F : Type} (d : PubliclyVerifiableDkg F)
    (l : List (Nat × PubliclyVerifiableSS F)) : PubliclyVerifiableDkg F :=
  l.foldl (fun d ip => dealStep d ip.1 ip.2) d

/-- Modelled from the spec (§4.2 final joint key): the constant coefficient of
the inverse FFT of a family of evaluations over the domain `dom`, computed via
Lagrange interpolation: for evaluations of a polynomial of degree `< #dom`
this is the interpolant's coefficient 0, i.e. its value at 0. -/
def ifft_coeff0 {F : Type} [Field F] [DecidableEq F] (dom : Finset F) (ev : F → F) : F :=
  ∑ x ∈ dom, lagrangeCoeffAt0 dom x * ev x

/-- Exponent of the aggregated commitment at domain point `x` (spec §3):
`commitments_agg[i] = Σ_d commitments_d[i]` with
`commitments_d[i] = g·f_d(ωⁱ)`. -/
def aggregateCommitments {F : Type} [Field F] (d : PubliclyVerifiableDkg F) (x : F) : F :=
  (d.vss.map (fun kv => evalPoly kv.2.coeffs x)).sum

/-- Concrete fixture mirroring `gen_n_validators` in the test module of
`ferveo/src/dkg/pv.rs`: four validators with distinct addresses and keys. -/
def testExternals : List (ExternalValidator F5) :=
  [⟨"validator_0", 0⟩, ⟨"validator_1", 1⟩, ⟨"validator_2", 2⟩, ⟨"validator_3", 3⟩]

/-- Concrete fixture mirroring `setup_dkg 0` (`t = 2`, `N = 4`) in the test
module of `ferveo/src/dkg/pv.rs`. -/
def testDkg : PubliclyVerifiableDkg F5 :=
  { params := ⟨0, 2, 4⟩, session_keypair := ⟨1⟩,
    validators := make_validators testExternals,
    vss := [], state := .Sharing 0 0, me := 0 }

end Ferveo


/-! Helper lemmas shared by the claims. -/

/-- Bridge from Horner evaluation on coefficient lists to `Polynomial.eval`. -/
theorem evalPoly_eq_eval {F : Type} [Field F] (l : List F) (x : F) :
    evalPoly l x = (l.foldr (fun a p => Polynomial.C a + Polynomial.X * p) 0).eval x := by
  induction l with
  | nil => simp [evalPoly]
  | cons a l ih =>
    simp only [evalPoly, List.foldr] at ih ⊢
    simp [Polynomial.eval_add, Polynomial.eval_mul, ih]

/-- Degree bound for the polynomial read off a coefficient list. -/
theorem degree_foldr_lt {F : Type} [Field F] (l : List F) :
    (l.foldr (fun a p => Polynomial.C a + Polynomial.X * p) 0).degree
      < (l.length : WithBot ℕ) := by
  induction l with
  | nil => simp
  | cons a l ih =>
    simp only [List.foldr, List.length_cons]
    refine lt_of_le_of_lt (Polynomial.degree_add_le _ _) (max_lt ?_ ?_)
    · exact lt_of_le_of_lt Polynomial.degree_C_le (by exact_mod_cast Nat.succ_pos l.length)
    · refine lt_of_le_of_lt (Polynomial.degree_mul_le _ _) ?_
      rw [Polynomial.degree_X]
      have hcast : ((l.length + 1 : ℕ) : WithBot ℕ) = 1 + (l.length : WithBot ℕ) := by
        push_cast
        ring
      rw [hcast]
      exact WithBot.add_lt_add_left (by simp) ih

/-- The executable Lagrange coefficient agrees with the Lagrange basis
polynomial evaluated at zero. -/
theorem lagrangeCoeffAt0_eq_basis_eval {F : Type} [Field F] [DecidableEq F]
    (dom : Finset F) (x : F) :
    lagrangeCoeffAt0 dom x = (Lagrange.basis dom id x).eval 0 := by
  unfold lagrangeCoeffAt0 Lagrange.basis
  rw [Polynomial.eval_prod]
  refine Finset.prod_congr rfl fun y _hy => ?_
  simp only [Lagrange.basisDivisor, id, Polynomial.eval_mul, Polynomial.eval_C,
    Polynomial.eval_sub, Polynomial.eval_X]
  rw [div_eq_mul_inv]
  ring

/-- Lagrange interpolation at zero: combining the evaluations of a polynomial
of degree `< #dom` at the nodes `dom` with the coefficients `lagrangeCoeffAt0`
recovers its value at zero. -/
theorem lagrange_sum_evalPoly {F : Type} [Field F] [DecidableEq F]
    (dom : Finset F) (l : List F) (hlen : l.length ≤ dom.card) :
    ∑ x ∈ dom, lagrangeCoeffAt0 dom x * evalPoly l x = evalPoly l 0 := by
  set f : Polynomial F := l.foldr (fun a p => Polynomial.C a + Polynomial.X * p) 0 with hf
  have hdeg : f.degree < (dom.card : WithBot ℕ) :=
    lt_of_lt_of_le (degree_foldr_lt l) (by exact_mod_cast hlen)
  have hinterp := Lagrange.eq_interpolate (Set.injOn_id _) hdeg
  have h0 := congrArg (Polynomial.eval 0) hinterp
  rw [Lagrange.interpolate_apply, Polynomial.eval_finset_sum] at h0
  simp only [Polynomial.eval_mul, Polynomial.eval_C, id] at h0
  calc ∑ x ∈ dom, lagrangeCoeffAt0 dom x * evalPoly l x
      = ∑ x ∈ dom, f.eval x * (Lagrange.basis dom id x).eval 0 := by
        refine Finset.sum_congr rfl fun x _hx => ?_
        rw [lagrangeCoeffAt0_eq_basis_eval, evalPoly_eq_eval, ← hf, mul_comm]
    _ = f.eval 0 := h0.symm
    _ = evalPoly l 0 := by rw [evalPoly_eq_eval, ← hf]

/-- XOR with a same-length keystream is involutive. -/
theorem zipWith_xor_cancel (d ks : List Nat) (h : d.length = ks.length) :
    List.zipWith (fun b k => b ^^^ k) (List.zipWith (fun b k => b ^^^ k) d ks) ks = d := by
  induction d generalizing ks with
  | nil => simp
  | cons a d ih =>
    cases ks with
    | nil => simp at h
    | cons k ks => simp [Nat.xor_cancel_right, ih ks (by simpa using h)]

/-- The modelled DEM stream cipher decrypts its own output. -/
theorem xorStream_involutive (stream : Nat → Nat → Nat) (key : Nat) (data : List Nat) :
    Tpke.xorStream stream key (Tpke.xorStream stream key data) = data := by
  unfold Tpke.xorStream
  have hlen : (List.zipWith (fun b k => b ^^^ k) data
      ((List.range data.length).map (stream key))).length = data.length := by
    simp [List.length_zipWith]
  rw [hlen]
  exact zipWith_xor_cancel data _ (by simp)

/-- C1 (Encryption soundness round-trip): encrypting `msg` under the joint
public key `Y = g·f(0)` and then calling `decrypt_with_shared_secret` on the
resulting ciphertext with the same `aad` and the shared secret combined from
the valid decryption shares of any `t` domain points `dom`
(`t = coeffs.length`, the dealer polynomial length) returns `msg`, for every
message, aad, RNG draw `r`, and abstract KDF/DEM/hash instantiation. -/
theorem tpke_encrypt_decrypt_roundtrip {F : Type} [Field F] [DecidableEq F]
    (hash2 : F → List Nat → List Nat → F) (kdf : F → Nat) (stream : Nat → Nat → Nat)
    (mac : Nat → List Nat → List Nat → Nat) (msg aad : List Nat) (coeffs : List F)
    (dom : Finset F) (r g_inv : F)
    (hcard : coeffs.length ≤ dom.card) (hg : g_inv = -1) :
    Tpke.decrypt_with_shared_secret hash2 kdf stream mac
      (Tpke.encrypt hash2 kdf stream mac msg aad (Tpke.setup_pubkey coeffs) r) aad
      (Tpke.share_combine_simple dom (fun x =>
        Tpke.create_share
          (Tpke.encrypt hash2 kdf stream mac msg aad (Tpke.setup_pubkey coeffs) r)
          (Tpke.private_key_share_at coeffs x)))
      g_inv
    = .ok msg := by
  subst hg
  have hsec : Tpke.share_combine_simple dom (fun x =>
      Tpke.create_share
        (Tpke.encrypt hash2 kdf stream mac msg aad (Tpke.setup_pubkey coeffs) r)
        (Tpke.private_key_share_at coeffs x))
      = Tpke.setup_pubkey coeffs * r := by
    simp only [Tpke.share_combine_simple, Tpke.create_share, Tpke.encrypt,
      Tpke.private_key_share_at, Tpke.setup_pubkey]
    calc ∑ x ∈ dom, lagrangeCoeffAt0 dom x * (r * evalPoly coeffs x)
        = r * ∑ x ∈ dom, lagrangeCoeffAt0 dom x * evalPoly coeffs x := by
          rw [Finset.mul_sum]
          exact Finset.sum_congr rfl fun x _hx => by ring
      _ = r * evalPoly coeffs 0 := by rw [lagrange_sum_evalPoly dom coeffs hcard]
      _ = evalPoly coeffs 0 * r := mul_comm _ _
  have hcheck : Tpke.check_ciphertext_validity hash2
      (Tpke.encrypt hash2 kdf stream mac msg aad (Tpke.setup_pubkey coeffs) r) aad (-1)
      = true := by
    simp only [Tpke.check_ciphertext_validity, Tpke.encrypt, decide_eq_true_eq]
    ring
  simp only [Tpke.decrypt_with_shared_secret, hsec, hcheck, not_true, if_false]
  simp only [Tpke.encrypt, ne_eq, ite_not]
  rw [if_pos trivial, xorStream_involutive]

/-- Witness for C1: a concrete instance over the field `F5`, with
`t = 2`, dealer polynomial `f = 2 + 3·x`, share points `{1, 2}`,
message `[7, 1]`, aad `[9]`, and concrete KDF/DEM/hash functions. -/
theorem tpke_encrypt_decrypt_roundtrip_witness :
    Tpke.decrypt_with_shared_secret
      (fun _ _ _ => 2) (fun _ => 3) (fun k i => k + i)
      (fun k c a => k + c.sum + a.sum)
      (Tpke.encrypt (fun _ _ _ => 2) (fun _ => 3) (fun k i => k + i)
        (fun k c a => k + c.sum + a.sum) [7, 1] [9] (Tpke.setup_pubkey ([2, 3] : List F5)) 1)
      [9]
      (Tpke.share_combine_simple ({1, 2} : Finset F5) (fun x =>
        Tpke.create_share
          (Tpke.encrypt (fun _ _ _ => 2) (fun _ => 3) (fun k i => k + i)
            (fun k c a => k + c.sum + a.sum) [7, 1] [9] (Tpke.setup_pubkey ([2, 3] : List F5)) 1)
          (Tpke.private_key_share_at [2, 3] x)))
      (-1)
    = .ok [7, 1] :=
  tpke_encrypt_decrypt_roundtrip _ _ _ _ [7, 1] [9] [2, 3] {1, 2} 1 (-1) (by decide) rfl

namespace Ferveo

/-- Helper: a successful Deal application equals `dealStep` at the resolved
index. -/
theorem apply_message_deal_eq {F : Type} [Field F] [DecidableEq F]
    (d : PubliclyVerifiableDkg F) (sender : ExternalValidator F)
    (p : PubliclyVerifiableSS F) (i : Nat)
    (hstate : stateAcceptsDeal d.state = true)
    (hfind : d.validators.findIdx?
      (fun probe => sender.address == probe.validator.address) = some i) :
    d.apply_message sender (.Deal p) = .ok (dealStep d i p) := by
  simp only [PubliclyVerifiableDkg.apply_message, hstate, hfind, if_true]
  cases hs : d.state with
  | Sharing a bl => simp only [dealStep, stateStep, hs]
  | Dealt => simp only [dealStep, stateStep, hs]
  | Success k =>
    rw [hs] at hstate
    simp [stateAcceptsDeal] at hstate

/-- Helper: `verify_message` on a Deal, fully unfolded. -/
theorem verify_message_deal_cases {F : Type} [Field F] [DecidableEq F]
    (d : PubliclyVerifiableDkg F) (sender : ExternalValidator F)
    (p : PubliclyVerifiableSS F)
    (hstate : stateAcceptsDeal d.state = true) :
    d.verify_message sender (.Deal p)
      = match d.validators.findIdx? (fun probe => decide (sender = probe.validator)) with
        | none => .error .UnknownDealer
        | some i =>
          if containsKey i d.vss then .error .RepeatDealer
          else if ¬ p.verify_optimistic then .error .InvalidTranscript
          else .ok () := by
  simp only [PubliclyVerifiableDkg.verify_message, hstate, if_true]

end Ferveo

namespace Ferveo

/-- C6 (Deal verification): in state `Sharing` or `Dealt`, `verify_message` on
a Deal succeeds iff the sender is a known validator (by the derived full
equality), has no transcript stored yet, and the transcript passes optimistic
verification.  `verify_message` takes the DKG by shared reference and returns
only `Result<()>`; the embedding makes this non-mutation structural. -/
theorem verify_message_deal_iff {F : Type} [Field F] [DecidableEq F]
    (d : PubliclyVerifiableDkg F) (sender : ExternalValidator F)
    (p : PubliclyVerifiableSS F)
    (hstate : stateAcceptsDeal d.state = true) :
    d.verify_message sender (.Deal p) = .ok () ↔
      ∃ i, d.validators.findIdx? (fun probe => decide (sender = probe.validator)) = some i
        ∧ containsKey i d.vss = false
        ∧ p.verify_optimistic = true := by
  rw [verify_message_deal_cases d sender p hstate]
  cases hfind : d.validators.findIdx? (fun probe => decide (sender = probe.validator)) with
  | none => simp
  | some i =>
    constructor
    · intro h
      by_cases h1 : containsKey i d.vss <;> by_cases h2 : p.verify_optimistic = true <;>
        simp_all
    · rintro ⟨j, hj, hcont, hopt⟩
      obtain rfl : i = j := Option.some.inj hj
      simp [hcont, hopt]

end Ferveo

namespace Ferveo

/-- Helper: replacing the value of a key already present in a key-sorted map
keeps its length. -/
theorem insertSorted_length_of_contains {F : Type} (i : Nat)
    (p : PubliclyVerifiableSS F) (m : List (Nat × PubliclyVerifiableSS F))
    (hsorted : vssSorted m) (hmem : containsKey i m = true) :
    (insertSorted i p m).length = m.length := by
  induction m with
  | nil => simp [containsKey] at hmem
  | cons kv rest ih =>
    obtain ⟨k, v⟩ := kv
    rw [vssSorted, List.pairwise_cons] at hsorted
    by_cases h1 : i < k
    · exfalso
      simp only [containsKey, List.any_cons, Bool.or_eq_true, beq_iff_eq] at hmem
      rcases hmem with h | h
      · omega
      · rcases List.any_eq_true.mp h with ⟨kv', hmem', hkv'⟩
        have := hsorted.1 kv' hmem'
        simp only [beq_iff_eq] at hkv'
        omega
    · by_cases h2 : i = k
      · simp [insertSorted, if_neg h1, h2]
      · have hrest : containsKey i rest = true := by
          simp only [containsKey, List.any_cons, Bool.or_eq_true, beq_iff_eq] at hmem
          rcases hmem with h | h
          · omega
          · exact h
        simp only [insertSorted, if_neg h1, if_neg h2, List.length_cons]
        exact congrArg Nat.succ (ih hsorted.2 hrest)

end Ferveo

namespace Ferveo

/-- C8 (Dealt transition): from `Sharing{accumulated = a}` a successful Deal
stores the transcript at the sender's index and the state becomes
`Sharing (a+1)` or, exactly when `a + 1` reaches `security_threshold`,
`Dealt`; a Deal applied in state `Dealt` stores the transcript and stays
`Dealt`. -/
theorem apply_deal_transition {F : Type} [Field F] [DecidableEq F]
    (d : PubliclyVerifiableDkg F) (sender : ExternalValidator F)
    (p : PubliclyVerifiableSS F) (i a bl : Nat)
    (hfind : d.validators.findIdx?
      (fun probe => sender.address == probe.validator.address) = some i) :
    (d.state = .Sharing a bl →
      d.apply_message sender (.Deal p)
        = .ok { d with vss := insertSorted i p d.vss,
                       state := if d.params.security_threshold ≤ a + 1 then .Dealt
                                else .Sharing (a + 1) bl })
    ∧ (d.state = .Dealt →
      d.apply_message sender (.Deal p)
        = .ok { d with vss := insertSorted i p d.vss, state := .Dealt }) := by
  constructor
  · intro hst
    rw [apply_message_deal_eq d sender p i (by rw [hst]; rfl) hfind]
    simp [dealStep, stateStep, hst]
  · intro hst
    rw [apply_message_deal_eq d sender p i (by rw [hst]; rfl) hfind]
    simp [dealStep, stateStep, hst]

/-- C10 (no duplicate re-check in `apply_message`): in state `Sharing a`, a
Deal from a sender whose transcript is already stored still succeeds: it
overwrites the stored transcript (the map keeps its size, so the number of
distinct dealers does not grow) and still bumps `accumulated_shares` to
`a + 1`, reaching `Dealt` whenever `a + 1 ≥ security_threshold` even though
fewer than `security_threshold` distinct dealers are stored. -/
theorem apply_deal_duplicate_overwrites {F : Type} [Field F] [DecidableEq F]
    (d : PubliclyVerifiableDkg F) (sender : ExternalValidator F)
    (p : PubliclyVerifiableSS F) (i a bl : Nat)
    (hstate : d.state = .Sharing a bl)
    (hfind : d.validators.findIdx?
      (fun probe => sender.address == probe.validator.address) = some i)
    (hsorted : vssSorted d.vss)
    (hdup : containsKey i d.vss = true) :
    d.apply_message sender (.Deal p)
      = .ok { d with vss := insertSorted i p d.vss,
                     state := if d.params.security_threshold ≤ a + 1 then .Dealt
                              else .Sharing (a + 1) bl }
    ∧ (insertSorted i p d.vss).length = d.vss.length := by
  refine ⟨?_, insertSorted_length_of_contains i p d.vss hsorted hdup⟩
  rw [apply_message_deal_eq d sender p i (by rw [hstate]; rfl) hfind]
  simp [dealStep, stateStep, hstate]

end Ferveo

namespace Ferveo

/-- C5 amended: the constructor validates exactly the power-of-two share count
and the membership of `me` (by the derived full equality); it succeeds iff
both hold.  `security_threshold` is never read, so no `t ≤ N` check occurs. -/
theorem new_validates_only_pow2_and_me {F : Type} [Field F] [DecidableEq F]
    (validators : List (ExternalValidator F)) (params : Params)
    (me : ExternalValidator F) (kp : Keypair F) :
    (PubliclyVerifiableDkg.new validators params me kp).isOk
      = (is_power_of_2 params.shares_num
          && validators.any (fun probe => decide (me = probe))) := by
  unfold PubliclyVerifiableDkg.new
  by_cases hp : is_power_of_2 params.shares_num
  · have hany : (validators.findIdx? (fun probe => decide (me = probe))).isSome
        = validators.any (fun probe => decide (me = probe)) :=
      List.findIdx?_isSome
    cases hfind : validators.findIdx? (fun probe => decide (me = probe)) with
    | none =>
      rw [hfind] at hany
      simp [hp, hfind, Except.isOk, Except.toBool, ← hany]
    | some i =>
      rw [hfind] at hany
      simp [hp, hfind, Except.isOk, Except.toBool, ← hany]
  · have hp' : is_power_of_2 params.shares_num = false := by
      simpa using hp
    simp [hp', Except.isOk, Except.toBool]

/-- C9 amended: the sender of a Deal is resolved by address alone in
`apply_message` (any matching address succeeds, whatever the carried public
key), while `verify_message` resolves by the derived full equality, so the
same sender fails there with the unknown-dealer error when no validator
matches on both fields. -/
theorem sender_resolution_split {F : Type} [Field F] [DecidableEq F]
    (d : PubliclyVerifiableDkg F) (sender : ExternalValidator F)
    (p : PubliclyVerifiableSS F)
    (hstate : stateAcceptsDeal d.state = true)
    (haddr : (d.validators.findIdx?
      (fun probe => sender.address == probe.validator.address)).isSome = true)
    (hfull : ∀ v ∈ d.validators, sender ≠ v.validator) :
    (d.apply_message sender (.Deal p)).isOk = true
    ∧ d.verify_message sender (.Deal p) = .error .UnknownDealer := by
  constructor
  · obtain ⟨i, hi⟩ := Option.isSome_iff_exists.mp haddr
    rw [apply_message_deal_eq d sender p i hstate hi]
    rfl
  · rw [verify_message_deal_cases d sender p hstate]
    have hnone : d.validators.findIdx? (fun probe => decide (sender = probe.validator))
        = none := by
      rw [List.findIdx?_eq_none_iff]
      intro v hv
      simp [hfull v hv]
    rw [hnone]

/-- C3 amended: in state `Dealt`, for an aggregate whose transcript passes
verification, `verify_message` accepts only if the verified count is at least
`shares_num − security_threshold`, and fails with the insufficient-aggregation
error whenever the count is below that margin. -/
theorem aggregation_margin {F : Type} [Field F] [DecidableEq F]
    (d : PubliclyVerifiableDkg F) (sender : ExternalValidator F)
    (agg : Aggregation F)
    (hstate : d.state = .Dealt) (hvalid : agg.vss.agg_valid = true) :
    (d.verify_message sender (.Aggregate agg) = .ok () →
      d.params.shares_num - d.params.security_threshold ≤ agg.vss.verified_count)
    ∧ (agg.vss.verified_count < d.params.shares_num - d.params.security_threshold →
      d.verify_message sender (.Aggregate agg) = .error .InsufficientAggregation) := by
  have hunfold : d.verify_message sender (.Aggregate agg)
      = (if agg.vss.verified_count < d.params.shares_num - d.params.security_threshold
         then .error .InsufficientAggregation
         else if d.final_key = agg.final_key then .ok () else .error .WrongFinalKey) := by
    simp only [PubliclyVerifiableDkg.verify_message, hstate, isDealt, if_true,
      AggregatedPvss.verify_aggregation, hvalid]
  constructor
  · intro h
    rw [hunfold] at h
    by_cases hc : agg.vss.verified_count
        < d.params.shares_num - d.params.security_threshold
    · simp [hc] at h
    · omega
  · intro hc
    rw [hunfold, if_pos hc]

/-- C7 (wrong final key rejection): in state `Dealt`, for an aggregate whose
transcript passes verification with a sufficient verified count,
`verify_message` succeeds iff the declared `final_key` equals the locally
derived one, and fails with the wrong-final-key error when they differ. -/
theorem aggregate_final_key_check {F : Type} [Field F] [DecidableEq F]
    (d : PubliclyVerifiableDkg F) (sender : ExternalValidator F)
    (agg : Aggregation F)
    (hstate : d.state = .Dealt) (hvalid : agg.vss.agg_valid = true)
    (hcount : d.params.shares_num - d.params.security_threshold
      ≤ agg.vss.verified_count) :
    (d.verify_message sender (.Aggregate agg) = .ok ()
      ↔ d.final_key = agg.final_key)
    ∧ (d.final_key ≠ agg.final_key →
      d.verify_message sender (.Aggregate agg) = .error .WrongFinalKey) := by
  have hunfold : d.verify_message sender (.Aggregate agg)
      = (if agg.vss.verified_count < d.params.shares_num - d.params.security_threshold
         then .error .InsufficientAggregation
         else if d.final_key = agg.final_key then .ok () else .error .WrongFinalKey) := by
    simp only [PubliclyVerifiableDkg.verify_message, hstate, isDealt, if_true,
      AggregatedPvss.verify_aggregation, hvalid]
  rw [hunfold, if_neg (by omega)]
  constructor
  · by_cases hk : d.final_key = agg.final_key <;> simp [hk]
  · intro hk
    rw [if_neg hk]

end Ferveo

namespace Ferveo

/-- C5 counterexample: with `N = 4` (a power of two), `me` present, and
`t = 5 > N`, the constructor succeeds, so no out-of-range check on `t`
exists. -/
theorem new_accepts_threshold_above_shares :
    (PubliclyVerifiableDkg.new testExternals ⟨0, 5, 4⟩
      ⟨"validator_0", 0⟩ ⟨1⟩).isOk = true
    ∧ 4 < 5 := by decide

/-- C9 counterexample: a sender carrying the address of validator 0 but a
different public key is rejected by `verify_message` (full-equality
resolution) yet accepted by `apply_message` (address-only resolution). -/
theorem sender_identity_not_by_address_alone :
    testDkg.verify_message ⟨"validator_0", 4⟩ (.Deal ⟨[1], true⟩)
      = .error .UnknownDealer
    ∧ (testDkg.apply_message ⟨"validator_0", 4⟩ (.Deal ⟨[1], true⟩)).isOk = true := by
  decide

/-- C3 counterexample: with `N = 4`, `t = 3`, a passing aggregate counting
only 2 verified transcripts is accepted (2 ≥ N − t = 1) although 2 < t. -/
theorem aggregation_accepts_below_threshold :
    (PubliclyVerifiableDkg.verify_message
      { testDkg with params := ⟨0, 3, 4⟩, state := .Dealt }
      ⟨"validator_0", 0⟩ (.Aggregate ⟨⟨true, 2⟩, 0⟩)) = .ok ()
    ∧ 2 < 3 := by decide

end Ferveo

namespace Ferveo

/-- Witness for C6 at the fixture. -/
theorem verify_message_deal_iff_witness :
    stateAcceptsDeal testDkg.state = true
    ∧ (testDkg.verify_message ⟨"validator_3", 3⟩ (.Deal ⟨[1], true⟩) = .ok () ↔
        ∃ i, testDkg.validators.findIdx?
            (fun probe => decide ((⟨"validator_3", 3⟩ : ExternalValidator F5) = probe.validator))
            = some i
          ∧ containsKey i testDkg.vss = false
          ∧ (⟨[1], true⟩ : PubliclyVerifiableSS F5).verify_optimistic = true) :=
  ⟨by decide, verify_message_deal_iff testDkg ⟨"validator_3", 3⟩ ⟨[1], true⟩ (by decide)⟩

/-- Witness for C8 at the fixture. -/
theorem apply_deal_transition_witness :
    testDkg.validators.findIdx?
      (fun probe => ("validator_1" : String) == probe.validator.address) = some 1
    ∧ ((testDkg.state = .Sharing 0 0 →
        testDkg.apply_message ⟨"validator_1", 1⟩ (.Deal ⟨[1], true⟩)
          = .ok { testDkg with vss := insertSorted 1 ⟨[1], true⟩ testDkg.vss,
                               state := if testDkg.params.security_threshold ≤ 0 + 1
                                        then .Dealt else .Sharing (0 + 1) 0 })
      ∧ (testDkg.state = .Dealt →
        testDkg.apply_message ⟨"validator_1", 1⟩ (.Deal ⟨[1], true⟩)
          = .ok { testDkg with vss := insertSorted 1 ⟨[1], true⟩ testDkg.vss,
                               state := .Dealt })) :=
  ⟨by decide, apply_deal_transition testDkg ⟨"validator_1", 1⟩ ⟨[1], true⟩ 1 0 0 (by decide)⟩

/-- Witness for C10 at a fixture that already stores a transcript for
validator 1 and has `accumulated_shares = 1` with `t = 2`: the duplicate Deal
is applied, the map size stays 1, and the state reaches `Dealt` with a single
distinct dealer. -/
theorem apply_deal_duplicate_overwrites_witness :
    ({ testDkg with vss := [(1, ⟨[2], true⟩)], state := .Sharing 1 0 }
        : PubliclyVerifiableDkg F5).state = .Sharing 1 0
    ∧ (PubliclyVerifiableDkg.apply_message
        { testDkg with vss := [(1, ⟨[2], true⟩)], state := .Sharing 1 0 }
        ⟨"validator_1", 1⟩ (.Deal ⟨[1], true⟩)
        = .ok { testDkg with
                vss := insertSorted 1 ⟨[1], true⟩ [(1, ⟨[2], true⟩)],
                state := if (2 : Nat) ≤ 1 + 1 then .Dealt else .Sharing (1 + 1) 0 }
      ∧ (insertSorted 1 (⟨[1], true⟩ : PubliclyVerifiableSS F5)
          [(1, ⟨[2], true⟩)]).length = [((1 : Nat), (⟨[2], true⟩ : PubliclyVerifiableSS F5))].length) := by
  refine ⟨rfl, ?_⟩
  have h := apply_deal_duplicate_overwrites
    { testDkg with vss := [(1, ⟨[2], true⟩)], state := .Sharing 1 0 }
    ⟨"validator_1", 1⟩ ⟨[1], true⟩ 1 1 0 rfl (by decide) (by decide) (by decide)
  exact h

/-- Witness for C9 amended at the fixture: matching address, mismatching
public key. -/
theorem sender_resolution_split_witness :
    stateAcceptsDeal testDkg.state = true
    ∧ ((testDkg.apply_message ⟨"validator_0", 4⟩ (.Deal ⟨[1], true⟩)).isOk = true
      ∧ testDkg.verify_message ⟨"validator_0", 4⟩ (.Deal ⟨[1], true⟩)
          = .error .UnknownDealer) :=
  ⟨by decide, sender_resolution_split testDkg ⟨"validator_0", 4⟩ ⟨[1], true⟩
    (by decide) (by decide) (by decide)⟩

/-- Witness for C3 amended at a `Dealt` fixture with `t = 3`, `N = 4`. -/
theorem aggregation_margin_witness :
    ({ testDkg with params := ⟨0, 3, 4⟩, state := .Dealt }
        : PubliclyVerifiableDkg F5).state = .Dealt
    ∧ ((PubliclyVerifiableDkg.verify_message
          { testDkg with params := ⟨0, 3, 4⟩, state := .Dealt }
          ⟨"validator_0", 0⟩ (.Aggregate ⟨⟨true, 0⟩, 0⟩) = .ok () →
        (4 : Nat) - 3 ≤ 0)
      ∧ ((0 : Nat) < 4 - 3 →
        PubliclyVerifiableDkg.verify_message
          { testDkg with params := ⟨0, 3, 4⟩, state := .Dealt }
          ⟨"validator_0", 0⟩ (.Aggregate ⟨⟨true, 0⟩, 0⟩)
          = .error .InsufficientAggregation)) :=
  ⟨rfl, aggregation_margin
    { testDkg with params := ⟨0, 3, 4⟩, state := .Dealt }
    ⟨"validator_0", 0⟩ ⟨⟨true, 0⟩, 0⟩ rfl rfl⟩

/-- Witness for C7 at a `Dealt` fixture, count at the margin. -/
theorem aggregate_final_key_check_witness :
    ({ testDkg with state := .Dealt } : PubliclyVerifiableDkg F5).state = .Dealt
    ∧ ((PubliclyVerifiableDkg.verify_message
          { testDkg with state := .Dealt }
          ⟨"validator_0", 0⟩ (.Aggregate ⟨⟨true, 2⟩, 0⟩) = .ok ()
        ↔ ({ testDkg with state := .Dealt } : PubliclyVerifiableDkg F5).final_key = 0)
      ∧ (({ testDkg with state := .Dealt } : PubliclyVerifiableDkg F5).final_key ≠ 0 →
        PubliclyVerifiableDkg.verify_message
          { testDkg with state := .Dealt }
          ⟨"validator_0", 0⟩ (.Aggregate ⟨⟨true, 2⟩, 0⟩)
          = .error .WrongFinalKey)) :=
  ⟨rfl, aggregate_final_key_check { testDkg with state := .Dealt }
    ⟨"validator_0", 0⟩ ⟨⟨true, 2⟩, 0⟩ rfl rfl (by decide)⟩

end Ferveo

/-- Horner evaluation at zero returns the constant coefficient. -/
theorem evalPoly_zero {F : Type} [Field F] (l : List F) :
    evalPoly l 0 = l.headD 0 := by
  cases l with
  | nil => rfl
  | cons a t => simp [evalPoly]

/-- Lagrange interpolation at zero of a pointwise sum of polynomial
evaluations returns the sum of the constant coefficients. -/
theorem lagrange_sum_list {F : Type} [Field F] [DecidableEq F]
    (dom : Finset F) (ls : List (List F))
    (hlen : ∀ l ∈ ls, l.length ≤ dom.card) :
    ∑ x ∈ dom, lagrangeCoeffAt0 dom x * (ls.map (fun l => evalPoly l x)).sum
      = (ls.map (fun l => l.headD 0)).sum := by
  induction ls with
  | nil => simp
  | cons l ls ih =>
    have hl : l.length ≤ dom.card := hlen l (List.mem_cons_self l ls)
    have hls : ∀ l' ∈ ls, l'.length ≤ dom.card := fun l' h => hlen l' (List.mem_cons_of_mem l h)
    simp only [List.map_cons, List.sum_cons, mul_add]
    rw [Finset.sum_add_distrib, ih hls, lagrange_sum_evalPoly dom l hl, evalPoly_zero]

namespace Ferveo

/-- C4 (Final key derivation): `final_key` returns the sum, over the stored
transcripts, of each transcript's 0-point commitment `coeffs[0]`, and this sum
equals the constant coefficient of the inverse FFT of the aggregated
commitments, provided every stored polynomial fits the domain
(`length ≤ #dom`, i.e. degree ≤ t−1 < N). -/
theorem final_key_eq_ifft {F : Type} [Field F] [DecidableEq F]
    (d : PubliclyVerifiableDkg F) (dom : Finset F)
    (hlen : ∀ kv ∈ d.vss, kv.2.coeffs.length ≤ dom.card) :
    d.final_key = (d.vss.map (fun kv => kv.2.coeffs.headD 0)).sum
    ∧ ifft_coeff0 dom (aggregateCommitments d) = d.final_key := by
  refine ⟨rfl, ?_⟩
  unfold ifft_coeff0 aggregateCommitments PubliclyVerifiableDkg.final_key
  have h := lagrange_sum_list dom (d.vss.map (fun kv => kv.2.coeffs))
    (by intro l hl
        rcases List.mem_map.mp hl with ⟨kv, hkv, rfl⟩
        exact hlen kv hkv)
  simp only [List.map_map, Function.comp] at h ⊢
  exact h

/-- Witness for C4: two transcripts over the four-point domain of `F5`. -/
theorem final_key_eq_ifft_witness :
    (∀ kv ∈ ({ testDkg with
        vss := [(0, ⟨[1, 2], true⟩), (2, ⟨[3], true⟩)] }
        : PubliclyVerifiableDkg F5).vss,
      kv.2.coeffs.length ≤ ({1, 2, 3, 4} : Finset F5).card)
    ∧ (({ testDkg with vss := [(0, ⟨[1, 2], true⟩), (2, ⟨[3], true⟩)] }
          : PubliclyVerifiableDkg F5).final_key
        = ((({ testDkg with vss := [(0, ⟨[1, 2], true⟩), (2, ⟨[3], true⟩)] }
          : PubliclyVerifiableDkg F5).vss.map (fun kv => kv.2.coeffs.headD 0)).sum)
      ∧ ifft_coeff0 {1, 2, 3, 4}
          (aggregateCommitments
            ({ testDkg with vss := [(0, ⟨[1, 2], true⟩), (2, ⟨[3], true⟩)] }
              : PubliclyVerifiableDkg F5))
        = ({ testDkg with vss := [(0, ⟨[1, 2], true⟩), (2, ⟨[3], true⟩)] }
            : PubliclyVerifiableDkg F5).final_key) :=
  ⟨by decide, final_key_eq_ifft
    { testDkg with vss := [(0, ⟨[1, 2], true⟩), (2, ⟨[3], true⟩)] }
    {1, 2, 3, 4} (by decide)⟩

end Ferveo

namespace Ferveo

/-- Insertions at distinct keys commute. -/
theorem insertSorted_comm {F : Type} (i j : Nat) (p q : PubliclyVerifiableSS F)
    (m : List (Nat × PubliclyVerifiableSS F)) (hij : i ≠ j) :
    insertSorted i p (insertSorted j q m) = insertSorted j q (insertSorted i p m) := by
  induction m with
  | nil =>
    simp only [insertSorted]
    split_ifs <;> first | rfl | omega
  | cons kv rest ih =>
    obtain ⟨k, v⟩ := kv
    simp only [insertSorted]
    split_ifs <;>
      first
      | rfl
      | omega
      | (simp only [insertSorted, ih]
         split_ifs <;> first | rfl | omega)

/-- Deal steps at distinct resolved indices commute. -/
theorem dealStep_comm {F : Type} (d : PubliclyVerifiableDkg F) (i j : Nat)
    (p q : PubliclyVerifiableSS F) (hij : i ≠ j) :
    dealStep (dealStep d i p) j q = dealStep (dealStep d j q) i p := by
  simp only [dealStep]
  rw [insertSorted_comm j i q p d.vss (fun h => hij h.symm)]

/-- The Deal state guard survives a deal step. -/
theorem stateAcceptsDeal_stateStep {F : Type} (t : Nat) (s : DkgState F)
    (h : stateAcceptsDeal s = true) :
    stateAcceptsDeal (stateStep t s) = true := by
  cases s with
  | Sharing a bl =>
    simp only [stateStep]
    split_ifs <;> rfl
  | Dealt => rfl
  | Success k => simp [stateAcceptsDeal] at h

/-- Applying a list of known-sender Deals through the state machine equals the
pure fold of `dealStep` over the resolved indices. -/
theorem runDkg_deals_eq_pure {F : Type} [Field F] [DecidableEq F]
    (deals : List (ExternalValidator F × PubliclyVerifiableSS F))
    (d : PubliclyVerifiableDkg F)
    (hstate : stateAcceptsDeal d.state = true)
    (hknown : ∀ sp ∈ deals, (d.validators.findIdx?
      (fun probe => sp.1.address == probe.validator.address)).isSome = true) :
    runDkg d (deals.map mkDealMsg)
      = .ok (applyDealsPure d (deals.map (fun sp =>
          ((d.validators.findIdx?
            (fun probe => sp.1.address == probe.validator.address)).getD 0, sp.2)))) := by
  induction deals generalizing d with
  | nil => rfl
  | cons sp rest ih =>
    obtain ⟨i, hi⟩ := Option.isSome_iff_exists.mp
      (hknown sp (List.mem_cons_self sp rest))
    have happly := apply_message_deal_eq d sp.1 sp.2 i hstate hi
    have hstep : stateAcceptsDeal (dealStep d i sp.2).state = true :=
      stateAcceptsDeal_stateStep _ _ hstate
    have hknown' : ∀ sq ∈ rest, ((dealStep d i sp.2).validators.findIdx?
        (fun probe => sq.1.address == probe.validator.address)).isSome = true :=
      fun sq hsq => hknown sq (List.mem_cons_of_mem sp hsq)
    simp only [List.map_cons, runDkg, List.foldlM_cons, mkDealMsg, happly, bind,
      Except.bind]
    have := ih (dealStep d i sp.2) hstep hknown'
    simp only [runDkg] at this
    rw [this]
    simp only [applyDealsPure, List.foldl_cons, hi, Option.getD_some]
    rfl

/-- Pure deal folds are invariant under permutation when the resolved keys are
distinct. -/
theorem applyDealsPure_perm {F : Type} (d : PubliclyVerifiableDkg F)
    (l l' : List (Nat × PubliclyVerifiableSS F)) (hperm : l.Perm l')
    (hnd : (l.map Prod.fst).Nodup) :
    applyDealsPure d l = applyDealsPure d l' := by
  unfold applyDealsPure
  refine hperm.foldl_eq' ?_ d
  intro x hx y hy z
  by_cases hxy : x = y
  · subst hxy
    rfl
  · exact dealStep_comm z x.1 y.1 x.2 y.2
      (fun h => hxy (List.inj_on_of_nodup_map hnd hx hy h))

/-- A `Dealt` state survives any further deal steps. -/
theorem applyDealsPure_dealt_stays {F : Type} (d : PubliclyVerifiableDkg F)
    (l : List (Nat × PubliclyVerifiableSS F)) (h : d.state = .Dealt) :
    (applyDealsPure d l).state = .Dealt := by
  induction l generalizing d with
  | nil => exact h
  | cons x xs ih =>
    show (applyDealsPure (dealStep d x.1 x.2) xs).state = .Dealt
    refine ih _ ?_
    simp [dealStep, stateStep, h]

/-- Starting from `Sharing a` and applying at least one deal with
`a + (number of deals) ≥ t`, the pure fold ends in `Dealt`. -/
theorem applyDealsPure_reaches_dealt {F : Type} (d : PubliclyVerifiableDkg F)
    (l : List (Nat × PubliclyVerifiableSS F)) (a bl : Nat)
    (hstate : d.state = .Sharing a bl) (hlen : 1 ≤ l.length)
    (hsum : d.params.security_threshold ≤ a + l.length) :
    (applyDealsPure d l).state = .Dealt := by
  induction l generalizing d a bl with
  | nil => simp at hlen
  | cons x xs ih =>
    show (applyDealsPure (dealStep d x.1 x.2) xs).state = .Dealt
    by_cases hth : d.params.security_threshold ≤ a + 1
    · refine applyDealsPure_dealt_stays _ xs ?_
      simp [dealStep, stateStep, hstate, hth]
    · cases xs with
      | nil =>
        simp only [List.length_cons, List.length_nil] at hsum
        omega
      | cons y ys =>
        have hs : (dealStep d x.1 x.2).state = .Sharing (a + 1) bl := by
          simp [dealStep, stateStep, hstate, hth]
        refine ih (dealStep d x.1 x.2) (a + 1) bl hs (by simp) ?_
        have hpar : (dealStep d x.1 x.2).params = d.params := rfl
        rw [hpar]
        simp only [List.length_cons] at hsum ⊢
        omega

/-- Aggregate application in state `Dealt` caches the locally derived final
key. -/
theorem apply_aggregate_eq {F : Type} [Field F] [DecidableEq F]
    (d : PubliclyVerifiableDkg F) (sender : ExternalValidator F)
    (agg : Aggregation F) (hstate : d.state = .Dealt) :
    d.apply_message sender (.Aggregate agg)
      = .ok { d with state := .Success d.final_key } := by
  simp only [PubliclyVerifiableDkg.apply_message, hstate, isDealt, if_true]

/-- C2 (DKG order independence): applying a fixed set of valid Deals from
distinct known senders in either of two orders, followed by one Aggregate,
drives the state machine to the same final DKG, whose state is
`Success{final_key}` for its own locally derived final key. -/
theorem dkg_order_independence {F : Type} [Field F] [DecidableEq F]
    (d : PubliclyVerifiableDkg F)
    (deals deals' : List (ExternalValidator F × PubliclyVerifiableSS F))
    (sender : ExternalValidator F) (agg : Aggregation F) (a bl : Nat)
    (hperm : deals.Perm deals')
    (hstate : d.state = .Sharing a bl)
    (hknown : ∀ sp ∈ deals, (d.validators.findIdx?
      (fun probe => sp.1.address == probe.validator.address)).isSome = true)
    (hnd : (deals.map (fun sp => (d.validators.findIdx?
      (fun probe => sp.1.address == probe.validator.address)).getD 0)).Nodup)
    (hlen : 1 ≤ deals.length)
    (hsum : d.params.security_threshold ≤ a + deals.length) :
    runDkg d (deals.map mkDealMsg ++ [(sender, .Aggregate agg)])
      = runDkg d (deals'.map mkDealMsg ++ [(sender, .Aggregate agg)])
    ∧ ∃ dfin, runDkg d (deals.map mkDealMsg ++ [(sender, .Aggregate agg)]) = .ok dfin
        ∧ dfin.state = .Success dfin.final_key := by
  have hacc : stateAcceptsDeal d.state = true := by rw [hstate]; rfl
  have hknown' : ∀ sp ∈ deals', (d.validators.findIdx?
      (fun probe => sp.1.address == probe.validator.address)).isSome = true :=
    fun sp h => hknown sp (hperm.symm.subset h)
  have h1 := runDkg_deals_eq_pure deals d hacc hknown
  have h2 := runDkg_deals_eq_pure deals' d hacc hknown'
  set d1 := applyDealsPure d (deals.map (fun sp => ((d.validators.findIdx?
      (fun probe => sp.1.address == probe.validator.address)).getD 0, sp.2))) with hd1
  have hpermres : (deals.map (fun sp => ((d.validators.findIdx?
        (fun probe => sp.1.address == probe.validator.address)).getD 0, sp.2))).Perm
      (deals'.map (fun sp => ((d.validators.findIdx?
        (fun probe => sp.1.address == probe.validator.address)).getD 0, sp.2))) :=
    hperm.map _
  have hndres : ((deals.map (fun sp => ((d.validators.findIdx?
      (fun probe => sp.1.address == probe.validator.address)).getD 0, sp.2))).map
        Prod.fst).Nodup := by
    rw [List.map_map]
    exact hnd
  have hpure := applyDealsPure_perm d _ _ hpermres hndres
  have hsplit : ∀ l1 : List (ExternalValidator F × Message F),
      runDkg d (l1 ++ [(sender, .Aggregate agg)])
        = runDkg d l1 >>= fun d1 => d1.apply_message sender (.Aggregate agg) := by
    intro l1
    simp [runDkg, List.foldlM_append]
  have hst1 : (applyDealsPure d (deals.map (fun sp => ((d.validators.findIdx?
      (fun probe => sp.1.address == probe.validator.address)).getD 0, sp.2)))).state
      = .Dealt := by
    refine applyDealsPure_reaches_dealt d _ a bl hstate ?_ ?_
    · simpa using hlen
    · simpa using hsum
  have happ := apply_aggregate_eq (applyDealsPure d (deals.map (fun sp =>
      ((d.validators.findIdx?
        (fun probe => sp.1.address == probe.validator.address)).getD 0, sp.2))))
    sender agg hst1
  refine ⟨?_, ⟨{ d1 with state := .Success d1.final_key }, ?_, rfl⟩⟩
  · rw [hsplit, hsplit, h1, h2, ← hpure]
  · rw [hsplit, h1]
    exact happ

/-- Witness for C2: two deals applied to the fixture in both orders, followed
by an aggregate. -/
theorem dkg_order_independence_witness :
    ([((⟨"validator_0", 0⟩ : ExternalValidator F5), (⟨[1], true⟩ : PubliclyVerifiableSS F5)),
        (⟨"validator_1", 1⟩, ⟨[2], true⟩)].Perm
      [(⟨"validator_1", 1⟩, ⟨[2], true⟩), (⟨"validator_0", 0⟩, ⟨[1], true⟩)])
    ∧ (runDkg testDkg
        ([((⟨"validator_0", 0⟩ : ExternalValidator F5), (⟨[1], true⟩ : PubliclyVerifiableSS F5)),
            (⟨"validator_1", 1⟩, ⟨[2], true⟩)].map mkDealMsg
          ++ [(⟨"validator_0", 0⟩, .Aggregate ⟨⟨true, 2⟩, 3⟩)])
        = runDkg testDkg
        ([((⟨"validator_1", 1⟩ : ExternalValidator F5), (⟨[2], true⟩ : PubliclyVerifiableSS F5)),
            (⟨"validator_0", 0⟩, ⟨[1], true⟩)].map mkDealMsg
          ++ [(⟨"validator_0", 0⟩, .Aggregate ⟨⟨true, 2⟩, 3⟩)])
      ∧ ∃ dfin, runDkg testDkg
          ([((⟨"validator_0", 0⟩ : ExternalValidator F5), (⟨[1], true⟩ : PubliclyVerifiableSS F5)),
              (⟨"validator_1", 1⟩, ⟨[2], true⟩)].map mkDealMsg
            ++ [(⟨"validator_0", 0⟩, .Aggregate ⟨⟨true, 2⟩, 3⟩)])
          = .ok dfin
        ∧ dfin.state = .Success dfin.final_key) :=
  ⟨by decide, dkg_order_independence testDkg
    [(⟨"validator_0", 0⟩, ⟨[1], true⟩), (⟨"validator_1", 1⟩, ⟨[2], true⟩)]
    [(⟨"validator_1", 1⟩, ⟨[2], true⟩), (⟨"validator_0", 0⟩, ⟨[1], true⟩)]
    ⟨"validator_0", 0⟩ ⟨⟨true, 2⟩, 3⟩ 0 0
    (by decide) rfl (by decide) (by decide) (by decide) (by decide)⟩

end Ferveo
